import Mathlib

/-!
Verification development for the exoskeleton data-acquisition pipeline.

The repository contains three variants of the producer/consumer core:

* the FreeRTOS/ESP32 sketches (`src/unnamed/part_000`, `src/unnamed/part_001`)
  with a circular FIFO buffer of rows guarded by cursors `buf_head`,
  `buf_tail`, `buf_count`, a sampling task pushing rows and a print task
  draining batches of two rows;
* the ISR prototypes in `src/unnamed/part_002` (`T1_callback`, `T2_callback`)
  that only wake the associated task or enqueue a print event;
* the `DAQ_System` variant: a `Buffer` class (`include/callbacks.h`) with
  `front`/`rear`/`size` cursors that rejects enqueues when full, and
  `src/main.cpp` whose timer ISRs sample and mutate a flat circular buffer
  directly inside the interrupt context.

All three are embedded below as pure Lean functions on explicit state
records, faithfully mirroring the corresponding C++ statements.
-/

/-- A row of samples: one value per configured channel
(`sample_t row[NUM_CH]` in the sketches). -/
def Row : Type := List Int

instance : DecidableEq Row := by
  unfold Row
  infer_instance

/-- `NUM_ROWS` in `src/unnamed/part_001` (and `part_000`): ring capacity. -/
def NUM_ROWS : Nat := 50

/-- `NUM_CH` in `src/unnamed/part_001`: channels per row. -/
def NUM_CH : Nat := 8

/-- The shared circular-FIFO state of the FreeRTOS variants:
`buffer[NUM_ROWS][NUM_CH]`, `buf_head`, `buf_tail`, `buf_count`
(`src/unnamed/part_001`, lines 26-29).  The storage is modelled as a total
function from slot index to row. -/
structure RingState where
  buffer : Nat → Row
  buf_head : Nat
  buf_tail : Nat
  buf_count : Nat

/-- Initial state: static arrays are zero-initialised and all three
cursors start at 0. -/
def initState : RingState :=
  { buffer := fun _ => List.replicate NUM_CH 0
    buf_head := 0
    buf_tail := 0
    buf_count := 0 }

/-- The push performed by `samplingTask` while holding `bufMutex`
(`src/unnamed/part_001`, lines 51-65): write the row at `buf_head`,
advance `buf_head` modulo the capacity, then either grow `buf_count`
or, when full, advance `buf_tail` (discarding the oldest row).
The capacity `N` is the `NUM_ROWS` configuration constant. -/
def samplingTaskPush (N : Nat) (row : Row) (s : RingState) : RingState :=
  { buffer := fun j => if j = s.buf_head then row else s.buffer j
    buf_head := (s.buf_head + 1) % N
    buf_tail := if s.buf_count < N then s.buf_tail else (s.buf_tail + 1) % N
    buf_count := if s.buf_count < N then s.buf_count + 1 else s.buf_count }

/-- The pop performed by `printTask` while holding `bufMutex`
(`src/unnamed/part_001`, lines 80-88): if `buf_count > 0`, read the row at
`buf_tail`, advance `buf_tail` modulo the capacity and decrement
`buf_count`; otherwise report no data and leave the state untouched. -/
def printTaskPop (N : Nat) (s : RingState) : Option Row × RingState :=
  if 0 < s.buf_count then
    (some (s.buffer s.buf_tail),
      { s with buf_tail := (s.buf_tail + 1) % N, buf_count := s.buf_count - 1 })
  else
    (none, s)

/-- One `EVT_T2` wake of `printTask` (`src/unnamed/part_001`, lines 77-101),
generalised over the batch: each list entry tells whether
`xSemaphoreTake(bufMutex, ...)` succeeded for that loop iteration.  On
success the iteration pops (possibly finding the buffer empty); on failure
it pops nothing.  In both cases `haveRow == false` prints the explicit
`<no-data>` marker, modelled as `none`; a real row prints as `some row`. -/
def printTaskBatch (N : Nat) : List Bool → RingState → List (Option Row) × RingState
  | [], s => ([], s)
  | a :: rest, s =>
    if a then
      let p := printTaskPop N s
      let q := printTaskBatch N rest p.2
      (p.1 :: q.1, q.2)
    else
      let q := printTaskBatch N rest s
      (none :: q.1, q.2)

/-- `r < 2` in the `printTask` drain loop: the fixed drain batch size. -/
def PRINT_BATCH : Nat := 2

/-- A sequence of `k` pops with the mutex always obtainable. -/
def popN (N k : Nat) (s : RingState) : List (Option Row) × RingState :=
  printTaskBatch N (List.replicate k true) s

/-- A sequence of pushes, oldest first. -/
def pushAll (N : Nat) (rows : List Row) (s : RingState) : RingState :=
  rows.foldl (fun t r => samplingTaskPush N r t) s

/-- The reachable-state invariant of the circular buffer: the cursors are
valid slot indices, the count never exceeds the capacity, and the write
cursor sits `buf_count` slots beyond the read cursor. -/
abbrev RingInv (N : Nat) (s : RingState) : Prop :=
  s.buf_head < N ∧ s.buf_tail < N ∧ s.buf_count ≤ N ∧
    s.buf_head = (s.buf_tail + s.buf_count) % N

/-- Abstraction function: the logical FIFO contents of the buffer, oldest
row first (`buffer[(buf_tail + i) % NUM_ROWS]` for `i < buf_count`,
exactly the traversal `Buffer::display` uses in the DAQ variant). -/
def toList (N : Nat) (s : RingState) : List Row :=
  List.ofFn fun i : Fin s.buf_count => s.buffer ((s.buf_tail + i.val) % N)

theorem toList_length (N : Nat) (s : RingState) :
    (toList N s).length = s.buf_count := by
  simp [toList]

theorem add_mod_index_inj (N t i j : Nat) (hi : i < N) (hj : j < N)
    (h : (t + i) % N = (t + j) % N) : i = j := by
  have hij : i % N = j % N := Nat.ModEq.add_left_cancel' t h
  rwa [Nat.mod_eq_of_lt hi, Nat.mod_eq_of_lt hj] at hij

theorem ringInv_initState : RingInv NUM_ROWS initState := by
  refine ⟨?_, ?_, ?_, ?_⟩ <;> simp [initState, NUM_ROWS]

theorem ringInv_push (N : Nat) (hN : 0 < N) (row : Row) (s : RingState)
    (h : RingInv N s) : RingInv N (samplingTaskPush N row s) := by
  obtain ⟨hh, ht, hc, hrel⟩ := h
  by_cases hlt : s.buf_count < N
  · refine ⟨Nat.mod_lt _ hN, ?_, ?_, ?_⟩ <;>
      simp only [samplingTaskPush, if_pos hlt]
    · exact ht
    · exact hlt
    · rw [hrel, Nat.mod_add_mod, Nat.add_assoc]
  · have hcN : s.buf_count = N := Nat.le_antisymm hc (Nat.le_of_not_lt hlt)
    refine ⟨Nat.mod_lt _ hN, ?_, ?_, ?_⟩ <;>
      simp only [samplingTaskPush, if_neg hlt]
    · exact Nat.mod_lt _ hN
    · exact hc
    · rw [hrel, Nat.mod_add_mod, Nat.mod_add_mod]
      congr 1
      omega

/-- The contents window as a function of its cursors, used to reason about
`toList` by cases on the count. -/
def window (N : Nat) (b : Nat → Row) (t c : Nat) : List Row :=
  List.ofFn fun i : Fin c => b ((t + i.val) % N)

theorem toList_eq_window (N : Nat) (s : RingState) :
    toList N s = window N s.buffer s.buf_tail s.buf_count := rfl

theorem window_push_lt (N t c : Nat) (b : Nat → Row) (row : Row) (hc : c < N) :
    window N (fun j => if j = (t + c) % N then row else b j) t (c + 1) =
      window N b t c ++ [row] := by
  unfold window
  rw [List.ofFn_succ', List.concat_eq_append]
  congr 1
  · refine congrArg List.ofFn (funext fun i => ?_)
    have hne : (t + i.val) % N ≠ (t + c) % N := fun hcontra =>
      absurd (add_mod_index_inj N t i.val c (lt_trans i.isLt hc) hc hcontra)
        (Nat.ne_of_lt i.isLt)
    simp only [Fin.coe_castSucc, if_neg hne]
  · simp [Fin.val_last]

theorem window_push_full (m t : Nat) (b : Nat → Row) (row : Row) (ht : t < m + 1) :
    window (m + 1) (fun j => if j = t then row else b j) ((t + 1) % (m + 1)) (m + 1) =
      (window (m + 1) b t (m + 1)).drop 1 ++ [row] := by
  unfold window
  rw [List.ofFn_succ' fun i : Fin (m + 1) =>
    (fun j => if j = t then row else b j) (((t + 1) % (m + 1) + i.val) % (m + 1))]
  rw [List.concat_eq_append, List.ofFn_succ]
  simp only [List.drop_succ_cons, List.drop_zero]
  congr 1
  · refine congrArg List.ofFn (funext fun i => ?_)
    simp only [Fin.coe_castSucc, Fin.val_succ, Nat.mod_add_mod]
    have hne : (t + 1 + i.val) % (m + 1) ≠ t := by
      intro hcontra
      have ht0 : (t + 0) % (m + 1) = t := by
        rw [Nat.add_zero, Nat.mod_eq_of_lt ht]
      have h1 : (t + (1 + i.val)) % (m + 1) = (t + 0) % (m + 1) := by
        rw [ht0, ← Nat.add_assoc]
        exact hcontra
      have := add_mod_index_inj (m + 1) t (1 + i.val) 0
        (by omega) (by omega) h1
      omega
    rw [if_neg hne]
    have harith : t + 1 + i.val = t + (i.val + 1) := by omega
    rw [harith]
  · have hlast : (t + 1 + m) % (m + 1) = t := by
      have harith2 : t + 1 + m = t + (m + 1) := by omega
      rw [harith2, Nat.add_mod_right, Nat.mod_eq_of_lt ht]
    simp [Nat.mod_add_mod, Fin.val_last, hlast]

theorem toList_push (N : Nat) (hN : 0 < N) (row : Row) (s : RingState)
    (h : RingInv N s) :
    toList N (samplingTaskPush N row s) =
      if s.buf_count < N then toList N s ++ [row]
      else (toList N s).drop 1 ++ [row] := by
  obtain ⟨hh, ht, hc, hrel⟩ := h
  by_cases hlt : s.buf_count < N
  · rw [if_pos hlt, toList_eq_window, toList_eq_window]
    simp only [samplingTaskPush, if_pos hlt]
    rw [hrel]
    exact window_push_lt N s.buf_tail s.buf_count s.buffer row hlt
  · rw [if_neg hlt, toList_eq_window, toList_eq_window]
    have hcN : s.buf_count = N := Nat.le_antisymm hc (Nat.le_of_not_lt hlt)
    obtain ⟨m, rfl⟩ : ∃ m, N = m + 1 := ⟨N - 1, by omega⟩
    have htl : s.buf_head = s.buf_tail := by
      rw [hrel, hcN, Nat.add_mod_right, Nat.mod_eq_of_lt ht]
    simp only [samplingTaskPush, if_neg hlt]
    rw [hcN, htl]
    exact window_push_full m s.buf_tail s.buffer row ht

theorem window_pop (N t m : Nat) (b : Nat → Row) :
    window N b ((t + 1) % N) m = (window N b t (m + 1)).drop 1 := by
  unfold window
  rw [List.ofFn_succ]
  simp only [List.drop_succ_cons, List.drop_zero]
  refine congrArg List.ofFn (funext fun i => ?_)
  simp only [Fin.val_succ, Nat.mod_add_mod]
  have harith : t + 1 + i.val = t + (i.val + 1) := by omega
  rw [harith]

theorem toList_pop (N : Nat) (s : RingState) (h : RingInv N s) :
    (printTaskPop N s).1 = (toList N s).head? ∧
      toList N (printTaskPop N s).2 = (toList N s).drop 1 ∧
      RingInv N (printTaskPop N s).2 := by
  obtain ⟨hh, ht, hc, hrel⟩ := h
  by_cases hpos : 0 < s.buf_count
  · have hN : 0 < N := lt_of_lt_of_le hpos hc
    obtain ⟨m, hm⟩ : ∃ m, s.buf_count = m + 1 := ⟨s.buf_count - 1, by omega⟩
    refine ⟨?_, ?_, ?_⟩
    · simp only [printTaskPop, if_pos hpos, toList_eq_window]
      rw [hm]
      unfold window
      rw [List.ofFn_succ]
      simp [Nat.mod_eq_of_lt ht]
    · simp only [printTaskPop, if_pos hpos, toList_eq_window]
      rw [hm]
      exact window_pop N s.buf_tail m s.buffer
    · refine ⟨?_, ?_, ?_, ?_⟩ <;> simp only [printTaskPop, if_pos hpos]
      · exact hh
      · exact Nat.mod_lt _ hN
      · omega
      · rw [hrel, Nat.mod_add_mod, hm]
        congr 1
        omega
  · have h0 : s.buf_count = 0 := by omega
    have hempty : toList N s = [] := by
      rw [toList_eq_window, h0]
      unfold window
      exact List.ofFn_zero _
    simp only [printTaskPop, if_neg hpos, hempty]
    exact ⟨rfl, by simp [hempty], hh, ht, hc, hrel⟩

theorem printTaskPop_empty (N : Nat) (s : RingState) (h : s.buf_count = 0) :
    printTaskPop N s = (none, s) := by
  simp [printTaskPop, h]

theorem pushAll_cons (N : Nat) (r : Row) (L : List Row) (s : RingState) :
    pushAll N (r :: L) s = pushAll N L (samplingTaskPush N r s) := rfl

theorem push_count (N : Nat) (row : Row) (s : RingState) :
    (samplingTaskPush N row s).buf_count =
      if s.buf_count < N then s.buf_count + 1 else s.buf_count := rfl

theorem toList_pushAll_le (N : Nat) (L : List Row) (s : RingState)
    (h : RingInv N s) (hlen : s.buf_count + L.length ≤ N) :
    toList N (pushAll N L s) = toList N s ++ L ∧ RingInv N (pushAll N L s) := by
  induction L generalizing s with
  | nil => exact ⟨by simp [pushAll], h⟩
  | cons r L ih =>
    rw [List.length_cons] at hlen
    have hN : 0 < N := by omega
    have hlt : s.buf_count < N := by omega
    have hpush := toList_push N hN r s h
    rw [if_pos hlt] at hpush
    have hinv := ringInv_push N hN r s h
    have hcount : (samplingTaskPush N r s).buf_count = s.buf_count + 1 := by
      rw [push_count, if_pos hlt]
    obtain ⟨h1, h2⟩ := ih (samplingTaskPush N r s) hinv (by rw [hcount]; omega)
    refine ⟨?_, h2⟩
    rw [pushAll_cons, h1, hpush, List.append_assoc, List.singleton_append]

theorem toList_pushAll (N : Nat) (hN : 0 < N) (L : List Row) (s : RingState)
    (h : RingInv N s) :
    toList N (pushAll N L s) =
        (toList N s ++ L).drop (s.buf_count + L.length - N) ∧
      RingInv N (pushAll N L s) := by
  induction L generalizing s with
  | nil =>
    have hz : s.buf_count + List.length ([] : List Row) - N = 0 := by
      have := h.2.2.1
      simp only [List.length_nil]
      omega
    rw [hz]
    exact ⟨by simp [pushAll], h⟩
  | cons r L ih =>
    rw [pushAll_cons]
    have hinv := ringInv_push N hN r s h
    obtain ⟨h1, h2⟩ := ih (samplingTaskPush N r s) hinv
    refine ⟨?_, h2⟩
    rw [h1]
    have hpush := toList_push N hN r s h
    by_cases hlt : s.buf_count < N
    · rw [if_pos hlt] at hpush
      rw [hpush, push_count, if_pos hlt]
      have hidx : s.buf_count + 1 + L.length - N =
          s.buf_count + (r :: L).length - N := by
        rw [List.length_cons]
        omega
      have happ : (toList N s ++ [r]) ++ L = toList N s ++ r :: L := by
        rw [List.append_assoc, List.singleton_append]
      rw [happ, hidx]
    · rw [if_neg hlt] at hpush
      have hcN : s.buf_count = N := Nat.le_antisymm h.2.2.1 (Nat.le_of_not_lt hlt)
      rw [hpush, push_count, if_neg hlt, hcN]
      have hidx1 : N + L.length - N = L.length := by omega
      have hidx2 : N + (r :: L).length - N = 1 + L.length := by
        rw [List.length_cons]
        omega
      rw [hidx1, hidx2]
      have happ : ((toList N s).drop 1 ++ [r]) ++ L = (toList N s).drop 1 ++ r :: L := by
        rw [List.append_assoc, List.singleton_append]
      rw [happ]
      have hlen1 : 1 ≤ (toList N s).length := by
        rw [toList_length, hcN]
        omega
      rw [← List.drop_drop, List.drop_append_of_le_length hlen1]

theorem take_append_replicate_stable {α : Type} (xs : List α) (y : α)
    (k m m' : Nat) (hm : k ≤ m) (hm' : k ≤ m') :
    (xs ++ List.replicate m y).take k = (xs ++ List.replicate m' y).take k := by
  rw [List.take_append_eq_append_take, List.take_append_eq_append_take,
    List.take_replicate, List.take_replicate]
  have : (k - xs.length) ⊓ m = (k - xs.length) ⊓ m' := by
    have h1 : k - xs.length ≤ m := le_trans (Nat.sub_le _ _) hm
    have h2 : k - xs.length ≤ m' := le_trans (Nat.sub_le _ _) hm'
    rw [min_eq_left h1, min_eq_left h2]
  rw [this]

theorem popN_zero (N : Nat) (s : RingState) : popN N 0 s = ([], s) := rfl

theorem popN_succ (N k : Nat) (s : RingState) :
    popN N (k + 1) s =
      ((printTaskPop N s).1 :: (popN N k (printTaskPop N s).2).1,
        (popN N k (printTaskPop N s).2).2) := by
  rw [popN, List.replicate_succ]
  rfl

theorem popN_spec (N k : Nat) (s : RingState) (h : RingInv N s) :
    (popN N k s).1 = ((toList N s).map some ++ List.replicate k none).take k ∧
      toList N (popN N k s).2 = (toList N s).drop k ∧
      RingInv N (popN N k s).2 := by
  induction k generalizing s with
  | zero => exact ⟨by simp [popN_zero], by simp [popN_zero], h⟩
  | succ k ih =>
    obtain ⟨hp1, hp2, hp3⟩ := toList_pop N s h
    obtain ⟨ih1, ih2, ih3⟩ := ih (printTaskPop N s).2 hp3
    rw [popN_succ]
    refine ⟨?_, ?_, ih3⟩
    · rw [ih1, hp1, hp2]
      cases hl : toList N s with
      | nil =>
        simp [List.take_replicate, List.replicate_succ]
      | cons a l =>
        simp only [List.head?_cons, List.drop_succ_cons, List.drop_zero,
          List.map_cons, List.cons_append, List.take_succ_cons]
        rw [take_append_replicate_stable (l.map some) none k k (k + 1)
          le_rfl (Nat.le_succ k)]
    · rw [ih2, hp2, List.drop_drop, Nat.add_comm]

/-- An operation on the shared circular buffer: a push by the sampling
task or a pop attempt by the print task. -/
inductive RingOp where
  | push : Row → RingOp
  | pop : RingOp

/-- A buffer state together with the operation counters of interest:
pushes performed, successful pops, and overwrite-evictions (full pushes
that advanced `buf_tail`). -/
structure TraceState where
  st : RingState
  pushes : Nat
  pops : Nat
  evicts : Nat

/-- One serialized buffer operation, with its effect on the counters. -/
def stepOp (N : Nat) (t : TraceState) : RingOp → TraceState
  | RingOp.push r =>
    { st := samplingTaskPush N r t.st
      pushes := t.pushes + 1
      pops := t.pops
      evicts := if t.st.buf_count < N then t.evicts else t.evicts + 1 }
  | RingOp.pop =>
    { st := (printTaskPop N t.st).2
      pushes := t.pushes
      pops := if (printTaskPop N t.st).1.isSome then t.pops + 1 else t.pops
      evicts := t.evicts }

/-- Run a sequence of serialized operations from the initial empty
buffer. -/
def runOps (N : Nat) (ops : List RingOp) : TraceState :=
  ops.foldl (stepOp N) ⟨initState, 0, 0, 0⟩

theorem ringInv_initState' (N : Nat) (hN : 0 < N) : RingInv N initState := by
  refine ⟨hN, hN, ?_, ?_⟩ <;> simp [initState]

theorem ringInv_runOps (N : Nat) (hN : 0 < N) (ops : List RingOp) :
    RingInv N (runOps N ops).st := by
  suffices hstep : ∀ t : TraceState, RingInv N t.st →
      RingInv N (ops.foldl (stepOp N) t).st by
    exact hstep ⟨initState, 0, 0, 0⟩ (ringInv_initState' N hN)
  induction ops with
  | nil => exact fun t ht => ht
  | cons op ops ih =>
    intro t ht
    refine ih (stepOp N t op) ?_
    cases op with
    | push r => exact ringInv_push N hN r t.st ht
    | pop => exact (toList_pop N t.st ht).2.2

/-- `BUFFER_SIZE` in `src/DAQ_System/include/callbacks.h` (500): the
capacity handed to the `Buffer` constructor in `main`. -/
def CB_BUFFER_SIZE : Int := 500

/-- The `Buffer` class of `src/DAQ_System/include/callbacks.h`, lines
34-98: `std::vector<int> data`, `int front`, `int rear`, `int capacity`,
`int size` (the mutex is ownership only and carries no data). -/
structure Buffer where
  data : Int → Int
  front : Int
  rear : Int
  capacity : Int
  size : Int

/-- `Buffer::Buffer(int cap)`: `front(-1), rear(-1), size(0), data(cap)`
(zero-initialised vector). -/
def Buffer.init (cap : Int) : Buffer :=
  { data := fun _ => 0, front := -1, rear := -1, capacity := cap, size := 0 }

/-- `Buffer::isFull`. -/
def Buffer.isFull (b : Buffer) : Bool := b.size == b.capacity

/-- `Buffer::isEmpty`. -/
def Buffer.isEmpty (b : Buffer) : Bool := b.size == 0

/-- `Buffer::enqueue` (`callbacks.h`, lines 54-68): when full, print a
diagnostic and return without storing; otherwise initialise or advance
`rear`, store the value there and increment `size`. -/
def Buffer.enqueue (b : Buffer) (value : Int) : Buffer :=
  if b.isFull then b
  else
    let f := if b.isEmpty then 0 else b.front
    let r := if b.isEmpty then 0 else (b.rear + 1) % b.capacity
    { b with front := f, rear := r
             data := fun i => if i = r then value else b.data i
             size := b.size + 1 }

/-- `Buffer::dequeue` (`callbacks.h`, lines 70-84): on empty, return
`false` (modelled `none`) leaving the state alone; otherwise read
`data[front]`, reset both cursors to `-1` if this was the last element or
advance `front`, and decrement `size`. -/
def Buffer.dequeue (b : Buffer) : Option Int × Buffer :=
  if b.isEmpty then (none, b)
  else
    let value := b.data b.front
    if b.front == b.rear then
      (some value, { b with front := -1, rear := -1, size := b.size - 1 })
    else
      (some value, { b with front := (b.front + 1) % b.capacity, size := b.size - 1 })

/-- Event id sent by the T2 ISR (`src/unnamed/part_002`, line 11). -/
def EVT_T2 : Nat := 2

/-- Capacity of `printQueue` (`xQueueCreate(16, ...)`). -/
def PRINT_QUEUE_CAP : Nat := 16

/-- System state seen by the FreeRTOS ISRs: the shared ring buffer, the
sampling task's notification count (`ulTaskNotifyTake` semantics), and
the bounded `printQueue` of event ids. -/
structure SysState where
  ring : RingState
  pending : Nat
  printQ : List Nat

/-- `T1_callback` (`src/unnamed/part_002`, lines 14-20): if the sampling
task handle is non-null, `vTaskNotifyGiveFromISR` delivers one wake
signal (the notification count increments); nothing else is touched.
`handleOk` models `samplingTaskHandle != NULL`. -/
def T1_callback (handleOk : Bool) (sys : SysState) : SysState :=
  if handleOk then { sys with pending := sys.pending + 1 } else sys

/-- `T2_callback` (`src/unnamed/part_002`, lines 23-29): if `printQueue`
is non-null, `xQueueSendFromISR` appends `EVT_T2` when the queue has
room and otherwise drops the event; nothing else is touched.  `queueOk`
models `printQueue != NULL`. -/
def T2_callback (queueOk : Bool) (sys : SysState) : SysState :=
  if queueOk then
    if sys.printQ.length < PRINT_QUEUE_CAP then
      { sys with printQ := sys.printQ ++ [EVT_T2] }
    else sys
  else sys

/-- `BUFFER_SIZE` in `src/DAQ_System/src/main.cpp` (`500 * 3`). -/
def DAQ_BUFFER_SIZE : Int := 500 * 3

/-- The globals of `src/DAQ_System/src/main.cpp`, lines 14-17:
`volatile int buffer[BUFFER_SIZE]`, `front`, `rear`, `bufferSize`. -/
structure DAQState where
  buffer : Int → Int
  front : Int
  rear : Int
  bufferSize : Int

/-- Initial values of the DAQ globals: zeroed array, `front = rear = -1`,
`bufferSize = 0`. -/
def daqInit : DAQState :=
  { buffer := fun _ => 0, front := -1, rear := -1, bufferSize := 0 }

/-- The Arduino `map(x, 0, 4095, 0, 1000)` applied to each raw ADC
reading in `onTimer1`. -/
def arduinoMap (x : Int) : Int := x * 1000 / 4095

/-- One iteration of the store loop in `onTimer1` (`main.cpp`,
lines 35-44): initialise or advance `rear`, store the value, grow
`bufferSize`. -/
def daqPushSlot (v : Int) (st : DAQState) : DAQState :=
  let r := if st.front = -1 then 0 else (st.rear + 1) % DAQ_BUFFER_SIZE
  { buffer := fun i => if i = r then v else st.buffer i
    front := if st.front = -1 then 0 else st.front
    rear := r
    bufferSize := st.bufferSize + 1 }

/-- `onTimer1` (`src/DAQ_System/src/main.cpp`, lines 27-48): inside the
critical section, when at least three free slots remain
(`bufferSize <= BUFFER_SIZE - 3`), read the three ADC channels, map each
to 0..1000 and store the triplet; otherwise do nothing at all.  The raw
readings are inputs `a1 a2 a3`; the second component counts the
`analogRead` channel reads performed by the fire. -/
def onTimer1 (a1 a2 a3 : Int) (st : DAQState) : DAQState × Nat :=
  if st.bufferSize ≤ DAQ_BUFFER_SIZE - 3 then
    (daqPushSlot (arduinoMap a3)
      (daqPushSlot (arduinoMap a2) (daqPushSlot (arduinoMap a1) st)), 3)
  else
    (st, 0)

theorem toList_initState (N : Nat) : toList N initState = [] := by
  simp [toList, initState]

theorem popN_drain (N k : Nat) (s : RingState) (h : RingInv N s)
    (hm : s.buf_count ≤ k) :
    (popN N k s).1 = (toList N s).map some ++ List.replicate (k - s.buf_count) none := by
  obtain ⟨h1, h2, h3⟩ := popN_spec N k s h
  rw [h1, List.take_append_eq_append_take,
    List.take_of_length_le (by rw [List.length_map, toList_length]; exact hm),
    List.take_replicate, List.length_map, toList_length,
    min_eq_left (Nat.sub_le k s.buf_count)]

/-- **C1** (corrected).  The claim as stated fails on `Buffer::enqueue`
(`src/DAQ_System/include/callbacks.h`, lines 54-68), one of its two cited
push operations: enqueueing `9` onto a full capacity-1 buffer holding `7`
leaves the buffer entirely unchanged — the count stays at capacity but the
read cursor does *not* advance, the oldest value is *not* discarded, and
the new value is *not* stored (the slot still holds `7`). -/
theorem c1_counterexample :
    Buffer.enqueue (Buffer.enqueue (Buffer.init 1) 7) 9 =
        Buffer.enqueue (Buffer.init 1) 7 ∧
      (Buffer.enqueue (Buffer.init 1) 7).size = 1 ∧
      (Buffer.enqueue (Buffer.init 1) 7).capacity = 1 ∧
      (Buffer.enqueue (Buffer.enqueue (Buffer.init 1) 7) 9).front = 0 ∧
      (Buffer.enqueue (Buffer.init 1) 7).front = 0 ∧
      (Buffer.enqueue (Buffer.enqueue (Buffer.init 1) 7) 9).data 0 = 7 := by
  exact ⟨rfl, by decide, by decide, by decide, by decide, by decide⟩

/-- **C1** (amended).  The FreeRTOS-variant push (`samplingTask`,
`src/unnamed/part_001`, lines 51-65) satisfies the stated postcondition:
below capacity, the count grows by one and the new row is appended;
at capacity, the count is unchanged, `buf_tail` advances by one, the
oldest row is discarded and the new row is stored.  The `Buffer::enqueue`
of the DAQ variant instead *rejects* the new value when full, leaving the
whole buffer state unchanged. -/
theorem c1_push_postcondition (N : Nat) (row : Row) (s : RingState)
    (hN : 0 < N) (h : RingInv N s) :
    (s.buf_count < N →
        (samplingTaskPush N row s).buf_count = s.buf_count + 1 ∧
          (samplingTaskPush N row s).buf_tail = s.buf_tail ∧
          toList N (samplingTaskPush N row s) = toList N s ++ [row]) ∧
      (s.buf_count = N →
        (samplingTaskPush N row s).buf_count = s.buf_count ∧
          (samplingTaskPush N row s).buf_tail = (s.buf_tail + 1) % N ∧
          toList N (samplingTaskPush N row s) = (toList N s).drop 1 ++ [row]) ∧
      ∀ (b : Buffer) (v : Int), b.size = b.capacity → Buffer.enqueue b v = b := by
  refine ⟨fun hlt => ⟨?_, ?_, ?_⟩, fun hfull => ⟨?_, ?_, ?_⟩, fun b v hbv => ?_⟩
  · rw [push_count, if_pos hlt]
  · simp only [samplingTaskPush, if_pos hlt]
  · have := toList_push N hN row s h
    rwa [if_pos hlt] at this
  · have hnlt : ¬s.buf_count < N := by omega
    rw [push_count, if_neg hnlt]
  · have hnlt : ¬s.buf_count < N := by omega
    simp only [samplingTaskPush, if_neg hnlt]
  · have hnlt : ¬s.buf_count < N := by omega
    have := toList_push N hN row s h
    rwa [if_neg hnlt] at this
  · simp [Buffer.enqueue, Buffer.isFull, hbv]

/-- Witness for C1 at a concrete full buffer of capacity 3. -/
theorem c1_push_postcondition_witness :
    0 < 3 ∧ RingInv 3 (pushAll 3 [[1], [2], [3]] initState) ∧
      (pushAll 3 [[1], [2], [3]] initState).buf_count = 3 ∧
      toList 3 (samplingTaskPush 3 [9] (pushAll 3 [[1], [2], [3]] initState)) =
        (toList 3 (pushAll 3 [[1], [2], [3]] initState)).drop 1 ++ ([[9]] : List Row) :=
  ⟨by decide, by decide, by decide,
    ((c1_push_postcondition 3 [9] (pushAll 3 [[1], [2], [3]] initState)
      (by decide) (by decide)).2.1 (by decide)).2.2⟩

/-- **C2** (confirmed).  Pushing any sequence of at most `NUM_ROWS` rows
into the empty buffer and then popping `k` times returns exactly the
pushed rows in push order (as `some`), followed by explicit empty results
once the buffer is exhausted: strict FIFO, each row returned by exactly
one pop. -/
theorem c2_fifo_order (L : List Row) (k : Nat) (hlen : L.length ≤ NUM_ROWS) :
    (popN NUM_ROWS k (pushAll NUM_ROWS L initState)).1 =
      (L.map some ++ List.replicate k none).take k := by
  have hinit : RingInv NUM_ROWS initState := ringInv_initState
  obtain ⟨hto, hinv⟩ := toList_pushAll_le NUM_ROWS L initState hinit
    (by simp only [initState]; omega)
  rw [toList_initState, List.nil_append] at hto
  obtain ⟨h1, h2, h3⟩ := popN_spec NUM_ROWS k (pushAll NUM_ROWS L initState) hinv
  rw [h1, hto]

/-- Witness for C2: push `[10]`, `[20]`, then pop three times. -/
theorem c2_fifo_order_witness :
    List.length ([[10], [20]] : List Row) ≤ NUM_ROWS ∧
      (popN NUM_ROWS 3 (pushAll NUM_ROWS [[10], [20]] initState)).1 =
        (List.map some ([[10], [20]] : List Row) ++ List.replicate 3 none).take 3 :=
  ⟨by decide, c2_fifo_order [[10], [20]] 3 (by decide)⟩

theorem printTaskPop_pos (N : Nat) (s : RingState) (hpos : 0 < s.buf_count) :
    printTaskPop N s = (some (s.buffer s.buf_tail),
      { s with buf_tail := (s.buf_tail + 1) % N, buf_count := s.buf_count - 1 }) := by
  simp [printTaskPop, hpos]

/-- **C3** (confirmed).  When the pushed sequence exceeds the capacity
`N`, the buffer retains exactly the last `N` rows; a pushed row that is
among the overwritten prefix (and does not reappear later) is never
returned by any pop.  In particular for capacity 3 and pushes
`[1],[2],[3],[4]`: the buffer holds `[2],[3],[4]` and four pops return
`[2]`, `[3]`, `[4]`, then the empty result. -/
theorem c3_overwrite_correctness (N : Nat) (hN : 0 < N) (L : List Row)
    (hlen : N ≤ L.length) :
    (toList N (pushAll N L initState) = L.drop (L.length - N) ∧
        ∀ x ∈ L.take (L.length - N), x ∉ L.drop (L.length - N) →
          ∀ k, some x ∉ (popN N k (pushAll N L initState)).1) ∧
      toList 3 (pushAll 3 [[1], [2], [3], [4]] initState) =
        ([[2], [3], [4]] : List Row) ∧
      (popN 3 4 (pushAll 3 [[1], [2], [3], [4]] initState)).1 =
        ([some [2], some [3], some [4], none] : List (Option Row)) := by
  have hinit : RingInv N initState := ringInv_initState' N hN
  obtain ⟨hto, hinv⟩ := toList_pushAll N hN L initState hinit
  rw [toList_initState, List.nil_append] at hto
  have hc0 : initState.buf_count = 0 := rfl
  rw [hc0, Nat.zero_add] at hto
  refine ⟨⟨hto, ?_⟩, by decide, by decide⟩
  intro x hxtake hxdrop k hmem
  obtain ⟨h1, h2, h3⟩ := popN_spec N k (pushAll N L initState) hinv
  rw [h1, hto] at hmem
  have hmem2 := List.take_subset k _ hmem
  rcases List.mem_append.mp hmem2 with hcase | hcase
  · obtain ⟨y, hy, hyx⟩ := List.mem_map.mp hcase
    injection hyx with hh
    subst hh
    exact hxdrop hy
  · exact Option.noConfusion (List.eq_of_mem_replicate hcase)

/-- Witness for C3: the capacity-3 overflow scenario of the claim. -/
theorem c3_overwrite_correctness_witness :
    0 < 3 ∧ 3 ≤ List.length ([[1], [2], [3], [4]] : List Row) ∧
      toList 3 (pushAll 3 [[1], [2], [3], [4]] initState) =
        ([[1], [2], [3], [4]] : List Row).drop
          (List.length ([[1], [2], [3], [4]] : List Row) - 3) :=
  ⟨by decide, by decide,
    (c3_overwrite_correctness 3 (by decide) [[1], [2], [3], [4]] (by decide)).1.1⟩

/-- **C4** (confirmed).  In every state reachable by a serialized
sequence of pushes and pop attempts from the empty buffer, the count
stays within `[0, capacity]` and balances the operation counters:
`count + successful pops + overwrite-evictions = pushes`. -/
theorem c4_count_invariant (N : Nat) (ops : List RingOp) :
    0 ≤ (runOps N ops).st.buf_count ∧
      (runOps N ops).st.buf_count ≤ N ∧
      (runOps N ops).st.buf_count + (runOps N ops).pops + (runOps N ops).evicts =
        (runOps N ops).pushes := by
  suffices hstep : ∀ t : TraceState,
      t.st.buf_count ≤ N ∧ t.st.buf_count + t.pops + t.evicts = t.pushes →
      (ops.foldl (stepOp N) t).st.buf_count ≤ N ∧
        (ops.foldl (stepOp N) t).st.buf_count + (ops.foldl (stepOp N) t).pops +
          (ops.foldl (stepOp N) t).evicts = (ops.foldl (stepOp N) t).pushes by
    have hrun := hstep ⟨initState, 0, 0, 0⟩ (by exact ⟨by simp [initState], by simp [initState]⟩)
    exact ⟨Nat.zero_le _, hrun.1, hrun.2⟩
  induction ops with
  | nil => exact fun t ht => ht
  | cons op ops ih =>
    intro t ht
    obtain ⟨ht1, ht2⟩ := ht
    refine ih (stepOp N t op) ?_
    cases op with
    | push r =>
      refine ⟨?_, ?_⟩ <;> simp only [stepOp, push_count] <;> split_ifs <;> omega
    | pop =>
      by_cases hpos : 0 < t.st.buf_count
      · constructor
        · simp [stepOp, printTaskPop_pos N t.st hpos]
          all_goals omega
        · simp [stepOp, printTaskPop_pos N t.st hpos]
          all_goals omega
      · have h0 : t.st.buf_count = 0 := by omega
        constructor
        · simp [stepOp, printTaskPop_empty N t.st h0]
          all_goals omega
        · simp [stepOp, printTaskPop_empty N t.st h0]
          all_goals omega

/-- **C5** (confirmed).  A pop on an empty buffer returns the explicit
empty result and leaves the state unchanged; a pop on a non-empty buffer
removes and returns the logically oldest stored row (the head of the
FIFO contents, which is a real row, never an empty result). -/
theorem c5_pop_contract (N : Nat) (s : RingState) (h : RingInv N s) :
    (s.buf_count = 0 → printTaskPop N s = (none, s)) ∧
      (0 < s.buf_count →
        (printTaskPop N s).1 = (toList N s).head? ∧
          (toList N s).head?.isSome = true ∧
          toList N (printTaskPop N s).2 = (toList N s).drop 1 ∧
          (printTaskPop N s).2.buf_count = s.buf_count - 1) := by
  obtain ⟨hp1, hp2, hp3⟩ := toList_pop N s h
  refine ⟨fun h0 => printTaskPop_empty N s h0, fun hpos => ⟨hp1, ?_, hp2, ?_⟩⟩
  · have hlen : (toList N s).length = s.buf_count := toList_length N s
    cases hl : toList N s with
    | nil =>
      rw [hl] at hlen
      simp at hlen
      omega
    | cons a l => simp
  · rw [printTaskPop_pos N s hpos]

/-- Witness for C5 at a one-row buffer of capacity 3. -/
theorem c5_pop_contract_witness :
    RingInv 3 (pushAll 3 [[5]] initState) ∧
      0 < (pushAll 3 [[5]] initState).buf_count ∧
      (printTaskPop 3 (pushAll 3 [[5]] initState)).1 =
        (toList 3 (pushAll 3 [[5]] initState)).head? :=
  ⟨by decide, by decide,
    ((c5_pop_contract 3 (pushAll 3 [[5]] initState) (by decide)).2 (by decide)).1⟩

/-- **C6** (confirmed).  A drain wake with the mutex always obtainable on
a buffer holding `m < PRINT_BATCH` rows emits the `m` stored rows in FIFO
order followed by `PRINT_BATCH - m` explicit empty markers, in that
order. -/
theorem c6_drain_partial_batch (s : RingState) (h : RingInv NUM_ROWS s)
    (hm : s.buf_count < PRINT_BATCH) :
    (printTaskBatch NUM_ROWS (List.replicate PRINT_BATCH true) s).1 =
      (toList NUM_ROWS s).map some ++
        List.replicate (PRINT_BATCH - s.buf_count) none :=
  popN_drain NUM_ROWS PRINT_BATCH s h (Nat.le_of_lt hm)

/-- Witness for C6 at a one-row buffer: output is the row then one
`<no-data>` marker. -/
theorem c6_drain_partial_batch_witness :
    RingInv NUM_ROWS (pushAll NUM_ROWS [[7]] initState) ∧
      (pushAll NUM_ROWS [[7]] initState).buf_count < PRINT_BATCH ∧
      (printTaskBatch NUM_ROWS (List.replicate PRINT_BATCH true)
          (pushAll NUM_ROWS [[7]] initState)).1 =
        (toList NUM_ROWS (pushAll NUM_ROWS [[7]] initState)).map some ++
          List.replicate
            (PRINT_BATCH - (pushAll NUM_ROWS [[7]] initState).buf_count) none :=
  ⟨by decide, by decide,
    c6_drain_partial_batch (pushAll NUM_ROWS [[7]] initState)
      (by decide) (by decide)⟩

/-- **C7** (counterexample).  The claim that a mutex timeout skips the
whole batch with nothing emitted is false on the code: with one stored
row `[7]`, a wake whose first acquisition times out and whose second
succeeds emits *two* sink messages — the `<no-data>` marker and then the
row — and does pop the row (the count drops from 1 to 0). -/
theorem c7_counterexample :
    (printTaskBatch NUM_ROWS [false, true]
        (samplingTaskPush NUM_ROWS [7] initState)).1 =
      ([none, some [7]] : List (Option Row)) ∧
      (printTaskBatch NUM_ROWS [false, true]
          (samplingTaskPush NUM_ROWS [7] initState)).1 ≠ [] ∧
      (printTaskBatch NUM_ROWS [false, true]
          (samplingTaskPush NUM_ROWS [7] initState)).2.buf_count = 0 ∧
      (samplingTaskPush NUM_ROWS [7] initState).buf_count = 1 := by
  exact ⟨by decide, by decide, by decide, by decide⟩

/-- **C7** (amended).  Mutex acquisition is attempted once per pop of the
batch, not once per wake: an acquisition that times out skips only its
own pop, leaves the buffer untouched and emits the explicit `<no-data>`
marker for that slot, while the remaining pops of the batch still make
their own attempts; in particular a wake whose every acquisition times
out pops nothing and emits one `<no-data>` marker per slot. -/
theorem c7_mutex_timeout_per_pop (N : Nat) (rest : List Bool) (s : RingState) :
    printTaskBatch N (false :: rest) s =
        (none :: (printTaskBatch N rest s).1, (printTaskBatch N rest s).2) ∧
      ∀ k, printTaskBatch N (List.replicate k false) s =
        (List.replicate k none, s) := by
  constructor
  · rfl
  · intro k
    induction k with
    | zero => rfl
    | succ k ih =>
      rw [List.replicate_succ, List.replicate_succ]
      simp [printTaskBatch, ih]

/-- **C8** (counterexample).  The claim that every trigger fire performs
no sampling and no buffer access is false on `onTimer1` of the DAQ
variant: from the initial state, one fire performs three channel reads
and mutates the buffer state (`bufferSize` goes from 0 to 3, `front`
from -1 to 0). -/
theorem c8_counterexample :
    (onTimer1 1000 2000 3000 daqInit).2 = 3 ∧
      (onTimer1 1000 2000 3000 daqInit).1.bufferSize = 3 ∧
      daqInit.bufferSize = 0 ∧
      (onTimer1 1000 2000 3000 daqInit).1.front = 0 ∧
      daqInit.front = -1 := by
  exact ⟨by decide, by decide, by decide, by decide, by decide⟩

/-- **C8** (amended).  The FreeRTOS trigger ISRs (`T1_callback`,
`T2_callback`) do satisfy the claim: a fire performs no sampling, no
ring-buffer access and no output — the ring state is unchanged in every
case — and its only effect is to deliver one wake signal
(`T1_callback` increments the sampling task's notification count;
`T2_callback` appends one `EVT_T2` to the print queue when it has room).
The DAQ-variant timer ISRs, by contrast, sample and mutate the buffer
directly. -/
theorem c8_isr_frame (sys : SysState) (hOk qOk : Bool) :
    (T1_callback hOk sys).ring = sys.ring ∧
      (T2_callback qOk sys).ring = sys.ring ∧
      (T1_callback hOk sys).printQ = sys.printQ ∧
      (T2_callback qOk sys).pending = sys.pending ∧
      (T1_callback true sys).pending = sys.pending + 1 ∧
      (sys.printQ.length < PRINT_QUEUE_CAP →
        (T2_callback true sys).printQ = sys.printQ ++ [EVT_T2]) := by
  refine ⟨?_, ?_, ?_, ?_, rfl, fun hlen => ?_⟩
  · unfold T1_callback
    split <;> rfl
  · unfold T2_callback
    split
    · split <;> rfl
    · rfl
  · unfold T1_callback
    split <;> rfl
  · unfold T2_callback
    split
    · split <;> rfl
    · rfl
  · simp [T2_callback, hlen]

/-- Witness for C8 (amended) at the boot state. -/
theorem c8_isr_frame_witness :
    (T1_callback true ⟨initState, 0, []⟩).pending = 0 + 1 ∧
      (T2_callback true ⟨initState, 0, []⟩).printQ = [] ++ [EVT_T2] :=
  ⟨(c8_isr_frame ⟨initState, 0, []⟩ true true).2.2.2.2.1,
    (c8_isr_frame ⟨initState, 0, []⟩ true true).2.2.2.2.2 (by decide)⟩

/-- **C9** (confirmed).  In the FreeRTOS variants the cursor relation
`buf_head = (buf_tail + buf_count) % NUM_ROWS` holds in the initial
state (all three zero) and is preserved by every push of the sampling
task and every pop of the print task. -/
theorem c9_cursor_relation :
    initState.buf_head = (initState.buf_tail + initState.buf_count) % NUM_ROWS ∧
      (∀ (r : Row) (s : RingState),
        s.buf_head = (s.buf_tail + s.buf_count) % NUM_ROWS →
          (samplingTaskPush NUM_ROWS r s).buf_head =
            ((samplingTaskPush NUM_ROWS r s).buf_tail +
              (samplingTaskPush NUM_ROWS r s).buf_count) % NUM_ROWS) ∧
      ∀ s : RingState,
        s.buf_head = (s.buf_tail + s.buf_count) % NUM_ROWS →
          (printTaskPop NUM_ROWS s).2.buf_head =
            ((printTaskPop NUM_ROWS s).2.buf_tail +
              (printTaskPop NUM_ROWS s).2.buf_count) % NUM_ROWS := by
  refine ⟨by decide, fun r s hrel => ?_, fun s hrel => ?_⟩
  · simp only [samplingTaskPush, NUM_ROWS] at hrel ⊢
    split_ifs with hlt <;> omega
  · by_cases hpos : 0 < s.buf_count
    · rw [printTaskPop_pos NUM_ROWS s hpos]
      simp only [NUM_ROWS] at hrel ⊢
      omega
    · rw [printTaskPop_empty NUM_ROWS s (by omega)]
      exact hrel

/-- Witness for C9: the relation after one push from the initial
state. -/
theorem c9_cursor_relation_witness :
    (samplingTaskPush NUM_ROWS [1] initState).buf_head =
      ((samplingTaskPush NUM_ROWS [1] initState).buf_tail +
        (samplingTaskPush NUM_ROWS [1] initState).buf_count) % NUM_ROWS :=
  c9_cursor_relation.2.1 [1] initState c9_cursor_relation.1

/-- **C10** (confirmed).  In the DAQ variant, when fewer than three free
slots remain (`bufferSize > BUFFER_SIZE - 3`), a timer-1 fire performs no
channel reads and leaves the whole state — buffer array, `front`, `rear`,
`bufferSize` — unchanged: the freshly sampled triplet is what gets
dropped, never the buffered data. -/
theorem c10_timer1_drop_new (a1 a2 a3 : Int) (st : DAQState)
    (h : DAQ_BUFFER_SIZE - 3 < st.bufferSize) :
    onTimer1 a1 a2 a3 st = (st, 0) := by
  unfold onTimer1
  rw [if_neg (not_le.mpr h)]

/-- Witness for C10 at a nearly full DAQ buffer (1499 of 1500 slots). -/
theorem c10_timer1_drop_new_witness :
    DAQ_BUFFER_SIZE - 3 < (DAQState.mk (fun _ => 0) 0 1498 1499).bufferSize ∧
      onTimer1 5 6 7 (DAQState.mk (fun _ => 0) 0 1498 1499) =
        (DAQState.mk (fun _ => 0) 0 1498 1499, 0) :=
  ⟨by decide, c10_timer1_drop_new 5 6 7 (DAQState.mk (fun _ => 0) 0 1498 1499)
    (by decide)⟩
